import Mathlib

/-!
Verification of the Traffic Congestion Predictor core.

The repository's entry point is `app.py` (a Streamlit application).  It owns
the session state (the mutable road network, the cache-invalidation counter
`graph_cache_key`, and the route history) and delegates to two collaborator
modules, `data_loader.py` (graph store) and `utils.py` (the Dijkstra
shortest-path engine), whose sources are not part of this tree; those
collaborators are modelled from the design document.

Conventions of the embedding:
  * Python dictionaries-of-dictionaries become association lists
    (`List (Node × _)`), preserving insertion order, with `lookupN` playing
    the role of `dict.__getitem__` (first binding wins).
  * Edge weights (travel times in whole minutes, entered through
    `st.number_input(min_value=1, max_value=100, step=1)`) are `Nat`s; the
    mutation API accepts `Int` so that the non-positive-weight failure case
    is expressible.
  * Streamlit's `st.cache_data` decorator is modelled by explicit state
    passing: the memo slot is threaded through `create_networkx_graph`.
    Per the Streamlit contract, parameters whose names begin with an
    underscore are excluded from the cache key; in `app.py` *both*
    parameters of `create_networkx_graph` are underscore-prefixed, so the
    modelled cache key is empty (a single unconditional slot).
-/

namespace TrafficPredictor

/-- Node identifiers are the location labels of the road network. -/
abbrev Node := String

/-- An adjacency row: the neighbours of a node with their edge weights. -/
abbrev Adjacency := List (Node × Nat)

/-- The road network: a mapping from node to adjacency row, embedded as an
ordered association list (Python dict of dicts). -/
abbrev RoadNetwork := List (Node × Adjacency)

/-- Association-list lookup, first binding wins (Python dict access). -/
def lookupN {β : Type} : List (Node × β) → Node → Option β
  | [], _ => none
  | (a, b) :: rest, k => if a = k then some b else lookupN rest k

/-- Association-list update: overwrite the first binding of `k`, or append a
new binding if `k` is absent (Python `d[k] = v`). -/
def setEntry {β : Type} : List (Node × β) → Node → β → List (Node × β)
  | [], k, v => [(k, v)]
  | (a, b) :: rest, k, v =>
    if a = k then (k, v) :: rest else (a, b) :: setEntry rest k v

/-- Neighbours of a node (empty when the node is not in the network). -/
def neighbors (G : RoadNetwork) (a : Node) : Adjacency :=
  (lookupN G a).getD []

/-- Weight of the directed adjacency entry `a → b`, when present. -/
def edgeWeight (G : RoadNetwork) (a b : Node) : Option Nat :=
  lookupN (neighbors G a) b

/-- The node set of the network (the keys of the outer mapping). -/
def keys (G : RoadNetwork) : List Node :=
  G.map Prod.fst

/-- The data-model invariants of §3 of the design: the outer and inner
mappings are genuine maps (no duplicate keys), weights are positive, the
adjacency structure is symmetric, and there are no self-loops. -/
structure ValidGraph (G : RoadNetwork) : Prop where
  keysNodup : (G.map Prod.fst).Nodup
  adjNodup : ∀ a adj, (a, adj) ∈ G → (adj.map Prod.fst).Nodup
  pos : ∀ a b w, edgeWeight G a b = some w → 0 < w
  symm : ∀ a b w, edgeWeight G a b = some w → edgeWeight G b a = some w
  noSelf : ∀ a, edgeWeight G a a = none

/-! ### Lookup lemmas -/

theorem lookupN_mem_pair {β : Type} {l : List (Node × β)} {k : Node} {v : β}
    (h : lookupN l k = some v) : (k, v) ∈ l := by
  induction l with
  | nil => simp [lookupN] at h
  | cons hd tl ih =>
    obtain ⟨a, b⟩ := hd
    simp only [lookupN] at h
    by_cases hak : a = k
    · subst hak
      rw [if_pos rfl] at h
      cases h
      exact List.mem_cons_self _ _
    · rw [if_neg hak] at h
      exact List.mem_cons_of_mem _ (ih h)

theorem lookupN_mem_keys {β : Type} {l : List (Node × β)} {k : Node} {v : β}
    (h : lookupN l k = some v) : k ∈ l.map Prod.fst :=
  List.mem_map.mpr ⟨(k, v), lookupN_mem_pair h, rfl⟩

theorem lookupN_eq_none_iff {β : Type} {l : List (Node × β)} {k : Node} :
    lookupN l k = none ↔ k ∉ l.map Prod.fst := by
  induction l with
  | nil => simp [lookupN]
  | cons hd tl ih =>
    obtain ⟨a, b⟩ := hd
    by_cases hak : a = k
    · subst hak
      simp [lookupN, ih]
    · simp [lookupN, hak, ih, Ne.symm hak]

theorem mem_keys_exists_lookupN {β : Type} {l : List (Node × β)} {k : Node}
    (h : k ∈ l.map Prod.fst) : ∃ v, lookupN l k = some v := by
  cases hl : lookupN l k with
  | none => exact absurd h (lookupN_eq_none_iff.mp hl)
  | some v => exact ⟨v, rfl⟩

theorem lookupN_of_mem_nodup {β : Type} {l : List (Node × β)} {k : Node} {v : β}
    (hnd : (l.map Prod.fst).Nodup) (h : (k, v) ∈ l) : lookupN l k = some v := by
  induction l with
  | nil => simp at h
  | cons hd tl ih =>
    obtain ⟨a, b⟩ := hd
    simp only [List.map_cons, List.nodup_cons] at hnd
    rcases List.mem_cons.mp h with heq | hmem
    · cases heq
      simp [lookupN]
    · have hak : a ≠ k := by
        intro hak
        exact hnd.1 (hak ▸ List.mem_map.mpr ⟨(k, v), hmem, rfl⟩)
      simpa [lookupN, hak] using ih hnd.2 hmem

theorem lookupN_setEntry_self {β : Type} (l : List (Node × β)) (k : Node) (v : β) :
    lookupN (setEntry l k v) k = some v := by
  induction l with
  | nil => simp [setEntry, lookupN]
  | cons hd tl ih =>
    obtain ⟨a, b⟩ := hd
    by_cases hak : a = k
    · simp [setEntry, hak, lookupN]
    · simp [setEntry, hak, lookupN, ih]

theorem lookupN_setEntry_ne {β : Type} (l : List (Node × β)) (k k' : Node) (v : β)
    (h : k' ≠ k) : lookupN (setEntry l k v) k' = lookupN l k' := by
  induction l with
  | nil => simp [setEntry, lookupN, Ne.symm h]
  | cons hd tl ih =>
    obtain ⟨a, b⟩ := hd
    by_cases hak : a = k
    · subst hak
      simp [setEntry, lookupN, Ne.symm h]
    · simp only [setEntry, if_neg hak, lookupN]
      by_cases hak' : a = k'
      · simp [hak']
      · simp [hak', ih]

theorem mem_keys_setEntry {β : Type} (l : List (Node × β)) (k x : Node) (v : β) :
    x ∈ (setEntry l k v).map Prod.fst ↔ x ∈ l.map Prod.fst ∨ x = k := by
  induction l with
  | nil => simp [setEntry]
  | cons hd tl ih =>
    obtain ⟨a, b⟩ := hd
    by_cases hak : a = k
    · subst hak
      simp [setEntry]
      tauto
    · simp only [setEntry, if_neg hak, List.map_cons, List.mem_cons, ih]
      tauto

theorem keys_nodup_setEntry {β : Type} (l : List (Node × β)) (k : Node) (v : β)
    (h : (l.map Prod.fst).Nodup) : ((setEntry l k v).map Prod.fst).Nodup := by
  induction l with
  | nil => simp [setEntry]
  | cons hd tl ih =>
    obtain ⟨a, b⟩ := hd
    simp only [List.map_cons, List.nodup_cons] at h
    by_cases hak : a = k
    · subst hak
      simpa [setEntry] using h
    · simp only [setEntry, if_neg hak, List.map_cons, List.nodup_cons]
      refine ⟨?_, ih h.2⟩
      intro hmem
      rcases (mem_keys_setEntry tl k a v).mp hmem with h' | h'
      · exact h.1 h'
      · exact hak h'

/-! ### Walks and their weights

The mathematical side of the shortest-path specification: a walk is a
nonempty node sequence whose consecutive pairs are adjacency entries, and
its weight is the exact sum of the traversed edge weights. -/

/-- Proposition that `p` is a walk from `a` to `b` in `G`. -/
inductive IsWalk (G : RoadNetwork) : Node → Node → List Node → Prop where
  | single (a : Node) (h : a ∈ keys G) : IsWalk G a a [a]
  | cons (a b c : Node) (p : List Node) (w : Nat) (hw : edgeWeight G a b = some w)
      (hp : IsWalk G b c p) : IsWalk G a c (a :: p)

/-- Total weight of a node sequence: the sum of consecutive edge weights. -/
def walkWeight (G : RoadNetwork) : List Node → Nat
  | a :: b :: rest => (edgeWeight G a b).getD 0 + walkWeight G (b :: rest)
  | _ => 0

theorem walkWeight_nil (G : RoadNetwork) : walkWeight G [] = 0 := rfl

theorem walkWeight_one (G : RoadNetwork) (a : Node) : walkWeight G [a] = 0 := rfl

theorem walkWeight_cons_cons (G : RoadNetwork) (a b : Node) (p : List Node) :
    walkWeight G (a :: b :: p) = (edgeWeight G a b).getD 0 + walkWeight G (b :: p) := rfl

theorem walkWeight_cons_head {G : RoadNetwork} {p : List Node} {b : Node} (a : Node)
    (h : p.head? = some b) :
    walkWeight G (a :: p) = (edgeWeight G a b).getD 0 + walkWeight G p := by
  cases p with
  | nil => simp at h
  | cons b' t =>
    cases h
    rfl

theorem edgeWeight_mem_keys_left {G : RoadNetwork} {a b : Node} {w : Nat}
    (h : edgeWeight G a b = some w) : a ∈ keys G := by
  unfold edgeWeight neighbors at h
  cases hl : lookupN G a with
  | none => rw [hl] at h; simp [lookupN] at h
  | some adj => exact lookupN_mem_keys hl

theorem isWalk_head {G : RoadNetwork} {a b : Node} {p : List Node}
    (h : IsWalk G a b p) : ∃ t, p = a :: t := by
  cases h with
  | single a _ => exact ⟨[], rfl⟩
  | cons a b c p _ _ _ => exact ⟨p, rfl⟩

theorem isWalk_start_mem_keys {G : RoadNetwork} {a b : Node} {p : List Node}
    (h : IsWalk G a b p) : a ∈ keys G := by
  cases h with
  | single a ha => exact ha
  | cons a b c p w hw hp => exact edgeWeight_mem_keys_left hw

theorem isWalk_end_mem_keys {G : RoadNetwork} {a b : Node} {p : List Node}
    (h : IsWalk G a b p) : b ∈ keys G := by
  induction h with
  | single a ha => exact ha
  | cons a b c p w hw hp ih => exact ih

theorem isWalk_end_mem {G : RoadNetwork} {a b : Node} {p : List Node}
    (h : IsWalk G a b p) : b ∈ p := by
  induction h with
  | single a _ => exact List.mem_singleton.mpr rfl
  | cons a b c p w hw hp ih => exact List.mem_cons_of_mem _ ih

theorem isWalk_eq_dropLast_concat {G : RoadNetwork} {a b : Node} {p : List Node}
    (h : IsWalk G a b p) : p = p.dropLast ++ [b] := by
  induction h with
  | single a _ => rfl
  | cons a b c p w hw hp ih =>
    obtain ⟨t, rfl⟩ := isWalk_head hp
    calc a :: b :: t = a :: ((b :: t).dropLast ++ [c]) := by rw [← ih]
      _ = (a :: b :: t).dropLast ++ [c] := by simp [List.dropLast]

theorem isWalk_mem_dropLast_or_end {G : RoadNetwork} {a b x : Node} {p : List Node}
    (h : IsWalk G a b p) (hx : x ∈ p) : x ∈ p.dropLast ∨ x = b := by
  rw [isWalk_eq_dropLast_concat h] at hx
  rcases List.mem_append.mp hx with h' | h'
  · exact Or.inl h'
  · exact Or.inr (List.mem_singleton.mp h')

theorem isWalk_cons_inv {G : RoadNetwork} {a c : Node} {q : List Node}
    (h : IsWalk G a c (a :: q)) (hq : q ≠ []) :
    ∃ b w, q.head? = some b ∧ edgeWeight G a b = some w ∧ IsWalk G b c q := by
  cases h with
  | single _ _ => exact absurd rfl hq
  | cons a b c p w hw hp =>
    obtain ⟨t, rfl⟩ := isWalk_head hp
    exact ⟨b, w, rfl, hw, hp⟩

theorem isWalk_concat_edge {G : RoadNetwork} (HG : ValidGraph G) {a b : Node}
    {p : List Node} (hp : IsWalk G a b p) :
    ∀ c w, edgeWeight G b c = some w →
      IsWalk G a c (p ++ [c]) ∧ walkWeight G (p ++ [c]) = walkWeight G p + w := by
  induction hp with
  | single a ha =>
    intro c w hw
    have hc : c ∈ keys G := edgeWeight_mem_keys_left (HG.symm _ _ _ hw)
    refine ⟨IsWalk.cons a c c [c] w hw (IsWalk.single c hc), ?_⟩
    simp [walkWeight_cons_cons, walkWeight_one, hw]
  | cons a b' bb p' w' hw' hp' ih =>
    intro c w hw
    obtain ⟨hwalk, hweight⟩ := ih c w hw
    obtain ⟨t, rfl⟩ := isWalk_head hp'
    refine ⟨IsWalk.cons a b' c ((b' :: t) ++ [c]) w' hw' hwalk, ?_⟩
    calc walkWeight G (a :: ((b' :: t) ++ [c]))
        = (edgeWeight G a b').getD 0 + walkWeight G ((b' :: t) ++ [c]) := rfl
      _ = (edgeWeight G a b').getD 0 + (walkWeight G (b' :: t) + w) := by rw [hweight]
      _ = walkWeight G (a :: b' :: t) + w := by
          rw [walkWeight_cons_cons]
          omega

theorem isWalk_concat {G : RoadNetwork} {a b : Node} {p : List Node}
    (hp : IsWalk G a b p) :
    ∀ c q, IsWalk G b c q →
      IsWalk G a c (p ++ q.tail) ∧
        walkWeight G (p ++ q.tail) = walkWeight G p + walkWeight G q := by
  induction hp with
  | single a ha =>
    intro c q hq
    obtain ⟨t, rfl⟩ := isWalk_head hq
    simpa [walkWeight_one] using hq
  | cons a b' bb p' w' hw' hp' ih =>
    intro c q hq
    obtain ⟨hwalk, hweight⟩ := ih c q hq
    obtain ⟨t, rfl⟩ := isWalk_head hp'
    refine ⟨IsWalk.cons a b' c ((b' :: t) ++ q.tail) w' hw' hwalk, ?_⟩
    calc walkWeight G (a :: ((b' :: t) ++ q.tail))
        = (edgeWeight G a b').getD 0 + walkWeight G ((b' :: t) ++ q.tail) := rfl
      _ = (edgeWeight G a b').getD 0 +
            (walkWeight G (b' :: t) + walkWeight G q) := by rw [hweight]
      _ = walkWeight G (a :: b' :: t) + walkWeight G q := by
          rw [walkWeight_cons_cons]
          omega

theorem exists_first_not_mem {p S : List Node} (h : ∃ x, x ∈ p ∧ x ∉ S) :
    ∃ p1 y p2, p = p1 ++ y :: p2 ∧ (∀ x ∈ p1, x ∈ S) ∧ y ∉ S := by
  induction p with
  | nil =>
    obtain ⟨x, hx, _⟩ := h
    simp at hx
  | cons a t ih =>
    by_cases ha : a ∈ S
    · have h' : ∃ x, x ∈ t ∧ x ∉ S := by
        obtain ⟨x, hx, hxs⟩ := h
        rcases List.mem_cons.mp hx with rfl | hxt
        · exact absurd ha hxs
        · exact ⟨x, hxt, hxs⟩
      obtain ⟨p1, y, p2, rfl, h1, h2⟩ := ih h'
      refine ⟨a :: p1, y, p2, rfl, ?_, h2⟩
      intro x hx
      rcases List.mem_cons.mp hx with rfl | hx
      · exact ha
      · exact h1 x hx
    · exact ⟨[], a, t, rfl, by simp, ha⟩

theorem isWalk_split {G : RoadNetwork} (p1 : List Node) :
    ∀ {a u y : Node} {p2 : List Node}, IsWalk G a u (p1 ++ y :: p2) →
      IsWalk G a y (p1 ++ [y]) ∧
        walkWeight G (p1 ++ y :: p2) =
          walkWeight G (p1 ++ [y]) + walkWeight G (y :: p2) := by
  induction p1 with
  | nil =>
    intro a u y p2 h
    obtain ⟨t, ht⟩ := isWalk_head h
    have hay : y = a := by
      simpa using congrArg List.head? ht
    subst hay
    refine ⟨IsWalk.single y (isWalk_start_mem_keys h), ?_⟩
    simp [walkWeight_one]
  | cons x p1' ih =>
    intro a u y p2 h
    obtain ⟨t, ht⟩ := isWalk_head h
    have hax : x = a := by
      simpa using congrArg List.head? ht
    subst hax
    have hne : p1' ++ y :: p2 ≠ [] := by simp
    obtain ⟨b, w, hhead, hw, htail⟩ := isWalk_cons_inv h hne
    obtain ⟨hw1, hweq⟩ := ih htail
    have hhead' : (p1' ++ [y]).head? = some b := by
      cases p1' with
      | nil =>
        simp only [List.nil_append, List.head?_cons] at hhead ⊢
        exact hhead
      | cons z t' =>
        simp only [List.cons_append, List.head?_cons] at hhead ⊢
        exact hhead
    constructor
    · exact IsWalk.cons x b y (p1' ++ [y]) w hw hw1
    · calc walkWeight G (x :: (p1' ++ y :: p2))
          = (edgeWeight G x b).getD 0 + walkWeight G (p1' ++ y :: p2) :=
            walkWeight_cons_head x hhead
        _ = (edgeWeight G x b).getD 0 +
              (walkWeight G (p1' ++ [y]) + walkWeight G (y :: p2)) := by rw [hweq]
        _ = walkWeight G (x :: (p1' ++ [y])) + walkWeight G (y :: p2) := by
            rw [walkWeight_cons_head x hhead']
            omega

/-! ### The shortest-path engine

The engine lives in `utils.py` (`dijkstra_shortest_path`), which is not part
of this source tree; `app.py` only calls it.  The definitions below are
therefore modelled from the design document, §4.3. -/

/-- Result of a shortest-path query (the spec's `PathResult`): a found path
with its total weight, the explicit no-path value, or the `UnknownNode`
failure for endpoints outside the graph. -/
inductive PathResult where
  | found (path : List Node) (weight : Nat)
  | noPath
  | unknownNode
deriving DecidableEq

/-- Dijkstra working state: tentative distances (absence of a binding means
infinity), predecessors, and the visited set. -/
structure DState where
  dist : List (Node × Nat)
  pred : List (Node × Node)
  visited : List Node

/-- Modelled from the spec: the min-priority frontier of §4.3 — extract the
unvisited node with the smallest tentative distance (`utils.py` is not in
the tree).  Ties are broken deterministically in favour of the earliest
binding, as the spec's §9 mandates a deterministic tie-break. -/
def extractMin (dist : List (Node × Nat)) (visited : List Node) : Option (Node × Nat) :=
  match dist with
  | [] => none
  | (v, d) :: rest =>
    let best := extractMin rest visited
    if v ∈ visited then best
    else
      match best with
      | none => some (v, d)
      | some (u, du) => if d ≤ du then some (v, d) else some (u, du)

theorem extractMin_none {dist : List (Node × Nat)} {visited : List Node}
    (h : extractMin dist visited = none) :
    ∀ v d, (v, d) ∈ dist → v ∈ visited := by
  induction dist with
  | nil => intro v d hmem; simp at hmem
  | cons hd rest ih =>
    obtain ⟨a, da⟩ := hd
    intro v d hmem
    by_cases hav : a ∈ visited
    · rw [show extractMin ((a, da) :: rest) visited = extractMin rest visited by
        simp [extractMin, hav]] at h
      rcases List.mem_cons.mp hmem with heq | hmem'
      · cases heq; exact hav
      · exact ih h v d hmem'
    · exfalso
      simp only [extractMin, if_neg hav] at h
      cases hrest : extractMin rest visited with
      | none => rw [hrest] at h; simp at h
      | some p =>
        obtain ⟨u, du⟩ := p
        rw [hrest] at h
        by_cases hle : da ≤ du <;> simp [hle] at h

theorem extractMin_mem {dist : List (Node × Nat)} {visited : List Node}
    {u : Node} {du : Nat} (h : extractMin dist visited = some (u, du)) :
    (u, du) ∈ dist ∧ u ∉ visited := by
  induction dist with
  | nil => simp [extractMin] at h
  | cons hd rest ih =>
    obtain ⟨a, da⟩ := hd
    by_cases hav : a ∈ visited
    · rw [show extractMin ((a, da) :: rest) visited = extractMin rest visited by
        simp [extractMin, hav]] at h
      obtain ⟨hmem, hnv⟩ := ih h
      exact ⟨List.mem_cons_of_mem _ hmem, hnv⟩
    · simp only [extractMin, if_neg hav] at h
      cases hrest : extractMin rest visited with
      | none =>
        rw [hrest] at h
        simp only [Option.some.injEq, Prod.mk.injEq] at h
        obtain ⟨rfl, rfl⟩ := h
        exact ⟨List.mem_cons_self _ _, hav⟩
      | some p =>
        obtain ⟨u', du'⟩ := p
        rw [hrest] at h
        by_cases hle : da ≤ du'
        · simp only [if_pos hle, Option.some.injEq, Prod.mk.injEq] at h
          obtain ⟨rfl, rfl⟩ := h
          exact ⟨List.mem_cons_self _ _, hav⟩
        · simp only [if_neg hle, Option.some.injEq, Prod.mk.injEq] at h
          obtain ⟨rfl, rfl⟩ := h
          obtain ⟨hmem, hnv⟩ := ih hrest
          exact ⟨List.mem_cons_of_mem _ hmem, hnv⟩

theorem extractMin_min {dist : List (Node × Nat)} {visited : List Node}
    {u : Node} {du : Nat} (h : extractMin dist visited = some (u, du)) :
    ∀ v d, (v, d) ∈ dist → v ∉ visited → du ≤ d := by
  induction dist generalizing u du with
  | nil => simp [extractMin] at h
  | cons hd rest ih =>
    obtain ⟨a, da⟩ := hd
    intro v d hmem hv
    by_cases hav : a ∈ visited
    · rw [show extractMin ((a, da) :: rest) visited = extractMin rest visited by
        simp [extractMin, hav]] at h
      rcases List.mem_cons.mp hmem with heq | hmem'
      · exact absurd (by cases heq; exact hav) hv
      · exact ih h v d hmem' hv
    · simp only [extractMin, if_neg hav] at h
      cases hrest : extractMin rest visited with
      | none =>
        rw [hrest] at h
        simp only [Option.some.injEq, Prod.mk.injEq] at h
        obtain ⟨rfl, rfl⟩ := h
        rcases List.mem_cons.mp hmem with heq | hmem'
        · cases heq; exact le_refl _
        · exact absurd (extractMin_none hrest v d hmem') hv
      | some p =>
        obtain ⟨u', du'⟩ := p
        rw [hrest] at h
        by_cases hle : da ≤ du'
        · simp only [if_pos hle, Option.some.injEq, Prod.mk.injEq] at h
          obtain ⟨rfl, rfl⟩ := h
          rcases List.mem_cons.mp hmem with heq | hmem'
          · cases heq; exact le_refl _
          · exact le_trans hle (ih hrest v d hmem' hv)
        · simp only [if_neg hle, Option.some.injEq, Prod.mk.injEq] at h
          obtain ⟨rfl, rfl⟩ := h
          rcases List.mem_cons.mp hmem with heq | hmem'
          · cases heq; exact le_of_lt (Nat.lt_of_not_le hle)
          · exact ih hrest v d hmem' hv

/-- Modelled from the spec: the relaxation step of §4.3 — for each neighbour
`v` of the extracted node `u` (of tentative distance `du`), if
`du + weight(u, v)` beats `v`'s best-known tentative distance, update the
distance and record `u` as predecessor of `v` (`utils.py` is not in the
tree). -/
def relaxList (u : Node) (du : Nat) :
    Adjacency → List (Node × Nat) → List (Node × Node) →
      List (Node × Nat) × List (Node × Node)
  | [], dist, pr => (dist, pr)
  | (v, w) :: rest, dist, pr =>
    match lookupN dist v with
    | none => relaxList u du rest (setEntry dist v (du + w)) (setEntry pr v u)
    | some dv =>
      if du + w < dv then
        relaxList u du rest (setEntry dist v (du + w)) (setEntry pr v u)
      else relaxList u du rest dist pr

/-- Modelled from the spec: the main Dijkstra loop of §4.3 — repeatedly
extract the unvisited node with the smallest tentative distance, mark it
visited and relax its neighbours, until the frontier is exhausted.  The
spec's early exit on extracting the destination is explicitly flagged
there as an optimization "not required for correctness" and is omitted.
The fuel argument is a termination bound only: one node is visited per
iteration, so `|nodes| + 1` iterations always reach the exhausted
frontier. -/
def dijkstraLoop (G : RoadNetwork) : Nat → DState → DState
  | 0, st => st
  | fuel + 1, st =>
    match extractMin st.dist st.visited with
    | none => st
    | some (u, du) =>
      let res := relaxList u du (neighbors G u) st.dist st.pred
      dijkstraLoop G fuel { dist := res.1, pred := res.2, visited := u :: st.visited }

/-- Modelled from the spec: path reconstruction of §4.3 — walk predecessors
from the destination back to the source (the chain ends at the source,
which has no predecessor) and reverse.  The fuel is a termination bound:
with positive weights each predecessor step decreases the tentative
distance by at least 1, so a fuel equal to the destination's distance
suffices. -/
def walkPreds (pr : List (Node × Node)) : Nat → Node → List Node
  | 0, v => [v]
  | fuel + 1, v =>
    match lookupN pr v with
    | none => [v]
    | some u => v :: walkPreds pr fuel u

/-- Run the Dijkstra loop from the §4.3 initial state: the source at
tentative distance 0, every other node at infinity, nothing visited. -/
def runDijkstra (G : RoadNetwork) (source : Node) : DState :=
  dijkstraLoop G ((keys G).length + 1)
    { dist := [(source, 0)], pred := [], visited := [] }

/-- Modelled from the spec: `shortestPath(graph, source, destination)` of
§4.3 (`utils.py`'s `dijkstra_shortest_path` is not in the tree).  Fails
with `UnknownNode` when an endpoint is outside the node set; returns the
explicit no-path value when the destination keeps an infinite distance;
otherwise reconstructs the path from the predecessor map and returns it
with the destination's final distance. -/
def shortestPath (G : RoadNetwork) (source destination : Node) : PathResult :=
  if source ∈ keys G ∧ destination ∈ keys G then
    match lookupN (runDijkstra G source).dist destination with
    | none => PathResult.noPath
    | some d =>
        PathResult.found ((walkPreds (runDijkstra G source).pred d destination).reverse) d
  else PathResult.unknownNode

/-- Pointwise effect of relaxing a whole adjacency row: a node outside the
row keeps its distance and predecessor; a node `x` in the row with edge
weight `w` ends with distance `min (old distance) (du + w)` (or `du + w`
if it had none) and predecessor `u` exactly when the update fired. -/
theorem relaxList_lookup (u : Node) (du : Nat) :
    ∀ (adj : Adjacency) (dist : List (Node × Nat)) (pr : List (Node × Node)),
      (adj.map Prod.fst).Nodup →
      ∀ x,
        (lookupN adj x = none →
          lookupN (relaxList u du adj dist pr).1 x = lookupN dist x ∧
            lookupN (relaxList u du adj dist pr).2 x = lookupN pr x) ∧
        (∀ w, lookupN adj x = some w →
          lookupN (relaxList u du adj dist pr).1 x =
              some ((lookupN dist x).elim (du + w) (fun dv => min dv (du + w))) ∧
            lookupN (relaxList u du adj dist pr).2 x =
              (lookupN dist x).elim (some u) (fun dv =>
                if du + w < dv then some u else lookupN pr x)) := by
  intro adj
  induction adj with
  | nil =>
    intro dist pr _ x
    refine ⟨fun _ => ⟨rfl, rfl⟩, fun w hw => ?_⟩
    simp [lookupN] at hw
  | cons hd rest ih =>
    obtain ⟨v, w0⟩ := hd
    intro dist pr hnd x
    simp only [List.map_cons, List.nodup_cons] at hnd
    have hvrest : lookupN rest v = none :=
      lookupN_eq_none_iff.mpr hnd.1
    cases hdv : lookupN dist v with
    | none =>
      have hred : relaxList u du ((v, w0) :: rest) dist pr =
          relaxList u du rest (setEntry dist v (du + w0)) (setEntry pr v u) := by
        simp [relaxList, hdv]
      rw [hred]
      by_cases hxv : x = v
      · subst hxv
        constructor
        · intro h
          simp [lookupN] at h
        · intro w hw
          have hww : w0 = w := by simpa [lookupN] using hw
          subst hww
          have h1 := ((ih (setEntry dist x (du + w0)) (setEntry pr x u) hnd.2 x).1 hvrest).1
          have h2 := ((ih (setEntry dist x (du + w0)) (setEntry pr x u) hnd.2 x).1 hvrest).2
          rw [h1, h2, lookupN_setEntry_self, lookupN_setEntry_self, hdv]
          exact ⟨rfl, rfl⟩
      · have hvx : v ≠ x := fun h => hxv h.symm
        have hadj : lookupN ((v, w0) :: rest) x = lookupN rest x := by
          simp [lookupN, hvx]
        have hdist : lookupN (setEntry dist v (du + w0)) x = lookupN dist x :=
          lookupN_setEntry_ne _ _ _ _ hxv
        have hpr : lookupN (setEntry pr v u) x = lookupN pr x :=
          lookupN_setEntry_ne _ _ _ _ hxv
        rw [hadj]
        constructor
        · intro h
          obtain ⟨h1, h2⟩ := (ih _ _ hnd.2 x).1 h
          rw [h1, h2, hdist, hpr]
          exact ⟨rfl, rfl⟩
        · intro w hw
          obtain ⟨h1, h2⟩ := (ih _ _ hnd.2 x).2 w hw
          rw [h1, h2, hdist, hpr]
          exact ⟨rfl, rfl⟩
    | some dv =>
      by_cases hlt : du + w0 < dv
      · have hred : relaxList u du ((v, w0) :: rest) dist pr =
            relaxList u du rest (setEntry dist v (du + w0)) (setEntry pr v u) := by
          simp [relaxList, hdv, hlt]
        rw [hred]
        by_cases hxv : x = v
        · subst hxv
          constructor
          · intro h
            simp [lookupN] at h
          · intro w hw
            have hww : w0 = w := by simpa [lookupN] using hw
            subst hww
            have h1 := ((ih (setEntry dist x (du + w0)) (setEntry pr x u) hnd.2 x).1 hvrest).1
            have h2 := ((ih (setEntry dist x (du + w0)) (setEntry pr x u) hnd.2 x).1 hvrest).2
            rw [h1, h2, lookupN_setEntry_self, lookupN_setEntry_self, hdv]
            constructor
            · simp [Nat.min_eq_right (le_of_lt hlt)]
            · simp [if_pos hlt]
        · have hvx : v ≠ x := fun h => hxv h.symm
          have hadj : lookupN ((v, w0) :: rest) x = lookupN rest x := by
            simp [lookupN, hvx]
          have hdist : lookupN (setEntry dist v (du + w0)) x = lookupN dist x :=
            lookupN_setEntry_ne _ _ _ _ hxv
          have hpr : lookupN (setEntry pr v u) x = lookupN pr x :=
            lookupN_setEntry_ne _ _ _ _ hxv
          rw [hadj]
          constructor
          · intro h
            obtain ⟨h1, h2⟩ := (ih _ _ hnd.2 x).1 h
            rw [h1, h2, hdist, hpr]
            exact ⟨rfl, rfl⟩
          · intro w hw
            obtain ⟨h1, h2⟩ := (ih _ _ hnd.2 x).2 w hw
            rw [h1, h2, hdist, hpr]
            exact ⟨rfl, rfl⟩
      · have hred : relaxList u du ((v, w0) :: rest) dist pr =
            relaxList u du rest dist pr := by
          simp [relaxList, hdv, hlt]
        rw [hred]
        by_cases hxv : x = v
        · subst hxv
          constructor
          · intro h
            simp [lookupN] at h
          · intro w hw
            have hww : w0 = w := by simpa [lookupN] using hw
            subst hww
            have h1 := ((ih dist pr hnd.2 x).1 hvrest).1
            have h2 := ((ih dist pr hnd.2 x).1 hvrest).2
            rw [h1, h2, hdv]
            constructor
            · simp [Nat.min_eq_left (Nat.le_of_not_lt hlt)]
            · simp [if_neg hlt]
        · have hvx : v ≠ x := fun h => hxv h.symm
          have hadj : lookupN ((v, w0) :: rest) x = lookupN rest x := by
            simp [lookupN, hvx]
          rw [hadj]
          constructor
          · intro h
            exact (ih _ _ hnd.2 x).1 h
          · intro w hw
            exact (ih _ _ hnd.2 x).2 w hw

/-- Relaxation only ever adds bindings for nodes of the adjacency row. -/
theorem relaxList_keys_sub (u : Node) (du : Nat) :
    ∀ (adj : Adjacency) (dist : List (Node × Nat)) (pr : List (Node × Node)) (x : Node),
      x ∈ (relaxList u du adj dist pr).1.map Prod.fst →
        x ∈ dist.map Prod.fst ∨ x ∈ adj.map Prod.fst := by
  intro adj
  induction adj with
  | nil =>
    intro dist pr x h
    exact Or.inl h
  | cons hd rest ih =>
    obtain ⟨v, w0⟩ := hd
    intro dist pr x h
    have step :
        ∀ dist' pr',
          (relaxList u du ((v, w0) :: rest) dist pr = relaxList u du rest dist' pr') →
          (dist'.map Prod.fst = dist.map Prod.fst ∨
            dist' = setEntry dist v (du + w0)) →
          x ∈ dist.map Prod.fst ∨ x ∈ ((v, w0) :: rest).map Prod.fst := by
      intro dist' pr' hred hcases
      rw [hred] at h
      rcases ih dist' pr' x h with h' | h'
      · rcases hcases with hsame | hset
        · rw [hsame] at h'
          exact Or.inl h'
        · rw [hset] at h'
          rcases (mem_keys_setEntry dist v x (du + w0)).mp h' with h'' | h''
          · exact Or.inl h''
          · exact Or.inr (by simp [h''])
      · exact Or.inr (List.mem_cons_of_mem _ h')
    cases hdv : lookupN dist v with
    | none =>
      exact step (setEntry dist v (du + w0)) (setEntry pr v u)
        (by simp [relaxList, hdv]) (Or.inr rfl)
    | some dv =>
      by_cases hlt : du + w0 < dv
      · exact step (setEntry dist v (du + w0)) (setEntry pr v u)
          (by simp [relaxList, hdv, hlt]) (Or.inr rfl)
      · exact step dist pr (by simp [relaxList, hdv, hlt]) (Or.inl rfl)

/-- Relaxation never removes a distance binding. -/
theorem relaxList_keys_super (u : Node) (du : Nat) :
    ∀ (adj : Adjacency) (dist : List (Node × Nat)) (pr : List (Node × Node)) (x : Node),
      x ∈ dist.map Prod.fst →
        x ∈ (relaxList u du adj dist pr).1.map Prod.fst := by
  intro adj
  induction adj with
  | nil =>
    intro dist pr x h
    exact h
  | cons hd rest ih =>
    obtain ⟨v, w0⟩ := hd
    intro dist pr x h
    cases hdv : lookupN dist v with
    | none =>
      rw [show relaxList u du ((v, w0) :: rest) dist pr =
          relaxList u du rest (setEntry dist v (du + w0)) (setEntry pr v u) by
        simp [relaxList, hdv]]
      exact ih _ _ x ((mem_keys_setEntry dist v x (du + w0)).mpr (Or.inl h))
    | some dv =>
      by_cases hlt : du + w0 < dv
      · rw [show relaxList u du ((v, w0) :: rest) dist pr =
            relaxList u du rest (setEntry dist v (du + w0)) (setEntry pr v u) by
          simp [relaxList, hdv, hlt]]
        exact ih _ _ x ((mem_keys_setEntry dist v x (du + w0)).mpr (Or.inl h))
      · rw [show relaxList u du ((v, w0) :: rest) dist pr =
            relaxList u du rest dist pr by
          simp [relaxList, hdv, hlt]]
        exact ih _ _ x h

/-- Relaxation keeps the distance map duplicate-free. -/
theorem relaxList_dist_nodup (u : Node) (du : Nat) :
    ∀ (adj : Adjacency) (dist : List (Node × Nat)) (pr : List (Node × Node)),
      (dist.map Prod.fst).Nodup →
      ((relaxList u du adj dist pr).1.map Prod.fst).Nodup := by
  intro adj
  induction adj with
  | nil =>
    intro dist pr h
    exact h
  | cons hd rest ih =>
    obtain ⟨v, w0⟩ := hd
    intro dist pr h
    cases hdv : lookupN dist v with
    | none =>
      rw [show relaxList u du ((v, w0) :: rest) dist pr =
          relaxList u du rest (setEntry dist v (du + w0)) (setEntry pr v u) by
        simp [relaxList, hdv]]
      exact ih _ _ (keys_nodup_setEntry dist v (du + w0) h)
    | some dv =>
      by_cases hlt : du + w0 < dv
      · rw [show relaxList u du ((v, w0) :: rest) dist pr =
            relaxList u du rest (setEntry dist v (du + w0)) (setEntry pr v u) by
          simp [relaxList, hdv, hlt]]
        exact ih _ _ (keys_nodup_setEntry dist v (du + w0) h)
      · rw [show relaxList u du ((v, w0) :: rest) dist pr =
            relaxList u du rest dist pr by
          simp [relaxList, hdv, hlt]]
        exact ih _ _ h

theorem isWalk_snoc_inv {G : RoadNetwork} {a c : Node} {p : List Node}
    (h : IsWalk G a c p) :
    (p = [a] ∧ c = a) ∨
      (∃ q x w, p = q ++ [c] ∧ IsWalk G a x q ∧ edgeWeight G x c = some w ∧
        walkWeight G p = walkWeight G q + w) := by
  induction h with
  | single a _ => exact Or.inl ⟨rfl, rfl⟩
  | cons a b c p' w0 hw0 hp' ih =>
    rcases ih with ⟨hp'eq, rfl⟩ | ⟨q, x, w, hp'eq, hq, hw, hweq⟩
    · subst hp'eq
      refine Or.inr ⟨[a], a, w0, rfl,
        IsWalk.single a (edgeWeight_mem_keys_left hw0), hw0, ?_⟩
      simp [walkWeight_cons_cons, walkWeight_one, hw0]
    · subst hp'eq
      refine Or.inr ⟨a :: q, x, w, rfl, IsWalk.cons a b x q w0 hw0 hq, hw, ?_⟩
      obtain ⟨t, rfl⟩ := isWalk_head hq
      calc walkWeight G (a :: ((b :: t) ++ [c]))
          = (edgeWeight G a b).getD 0 + walkWeight G ((b :: t) ++ [c]) := rfl
        _ = (edgeWeight G a b).getD 0 + (walkWeight G (b :: t) + w) := by rw [hweq]
        _ = walkWeight G (a :: b :: t) + w := by rw [walkWeight_cons_cons]; omega

/-! ### The Dijkstra loop invariant

This is the standard correctness argument: visited (settled) nodes carry
exact shortest distances, every recorded tentative distance is witnessed by
an actual walk whose interior is visited, every edge out of a visited node
has been relaxed, and the predecessor map records the walk structure. -/

/-- Invariant of the Dijkstra working state with respect to graph `G` and
source `s0`. -/
structure Inv (G : RoadNetwork) (s0 : Node) (st : DState) : Prop where
  nodupD : (st.dist.map Prod.fst).Nodup
  keysD : ∀ v, v ∈ st.dist.map Prod.fst → v ∈ keys G
  nodupS : st.visited.Nodup
  visSub : ∀ v, v ∈ st.visited → v ∈ st.dist.map Prod.fst
  src : lookupN st.dist s0 = some 0
  sound : ∀ v d, lookupN st.dist v = some d →
    ∃ p, IsWalk G s0 v p ∧ walkWeight G p = d ∧ ∀ x ∈ p.dropLast, x ∈ st.visited
  opt : ∀ v ∈ st.visited, ∀ d, lookupN st.dist v = some d →
    ∀ p, IsWalk G s0 v p → d ≤ walkWeight G p
  relaxedInv : ∀ x ∈ st.visited, ∀ v w, edgeWeight G x v = some w →
    ∃ dx dv, lookupN st.dist x = some dx ∧ lookupN st.dist v = some dv ∧ dv ≤ dx + w
  predinv : ∀ v d, lookupN st.dist v = some d →
    (v = s0 ∧ d = 0 ∧ lookupN st.pred v = none) ∨
    (∃ u w du, lookupN st.pred v = some u ∧ edgeWeight G u v = some w ∧
      lookupN st.dist u = some du ∧ du + w = d ∧ u ∈ st.visited)

theorem inv_init (G : RoadNetwork) (s0 : Node) (hs0 : s0 ∈ keys G) :
    Inv G s0 { dist := [(s0, 0)], pred := [], visited := [] } := by
  refine ⟨?_, ?_, ?_, ?_, ?_, ?_, ?_, ?_, ?_⟩
  · simp
  · intro v hv
    simp at hv
    subst hv
    exact hs0
  · simp
  · intro v hv
    simp at hv
  · simp [lookupN]
  · intro v d hv
    by_cases hsv : s0 = v
    · subst hsv
      have hd : d = 0 := by
        simp [lookupN] at hv
        omega
      exact ⟨[s0], IsWalk.single s0 hs0, by simp [walkWeight_one, hd], by simp⟩
    · simp [lookupN, hsv] at hv
  · intro v hv
    simp at hv
  · intro x hx
    simp at hx
  · intro v d hv
    by_cases hsv : s0 = v
    · subst hsv
      have hd : d = 0 := by
        simp [lookupN] at hv
        omega
      exact Or.inl ⟨rfl, hd, rfl⟩
    · simp [lookupN, hsv] at hv

/-- A walk whose interior lies in the visited set cannot beat the recorded
tentative distance of its endpoint. -/
theorem inv_interior_bound {G : RoadNetwork} {s0 : Node} {st : DState}
    (hInv : Inv G s0 st) {v : Node} {p : List Node}
    (hp : IsWalk G s0 v p) (hint : ∀ x ∈ p.dropLast, x ∈ st.visited) :
    ∃ d, lookupN st.dist v = some d ∧ d ≤ walkWeight G p := by
  rcases isWalk_snoc_inv hp with ⟨hpeq, rfl⟩ | ⟨q, x, w, hpeq, hq, hw, hweq⟩
  · exact ⟨0, hInv.src, Nat.zero_le _⟩
  · have hxq : x ∈ q := isWalk_end_mem hq
    have hdrop : p.dropLast = q := by
      rw [hpeq]
      simp
    have hxvis : x ∈ st.visited := hint x (hdrop ▸ hxq)
    obtain ⟨dx', hdx'⟩ := mem_keys_exists_lookupN (hInv.visSub x hxvis)
    have hxopt := hInv.opt x hxvis dx' hdx' q hq
    obtain ⟨dx, dv, hdx, hdv, hle⟩ := hInv.relaxedInv x hxvis v w hw
    have hdxeq : dx = dx' := by
      rw [hdx] at hdx'
      exact Option.some.inj hdx'
    refine ⟨dv, hdv, ?_⟩
    calc dv ≤ dx + w := hle
      _ = dx' + w := by rw [hdxeq]
      _ ≤ walkWeight G q + w := Nat.add_le_add_right hxopt w
      _ = walkWeight G p := hweq.symm

/-- When extracted, the frontier minimum beats every walk from the source:
any such walk first leaves the visited region at some node `y`, whose
recorded distance bounds the walk prefix and dominates the minimum. -/
theorem extracted_min_all_walks {G : RoadNetwork} {s0 : Node} {st : DState}
    (hInv : Inv G s0 st) {u : Node} {du : Nat}
    (hex : extractMin st.dist st.visited = some (u, du)) :
    ∀ p, IsWalk G s0 u p → du ≤ walkWeight G p := by
  intro p hp
  obtain ⟨hmem, hnv⟩ := extractMin_mem hex
  have hup : u ∈ p := isWalk_end_mem hp
  obtain ⟨p1, y, p2, hpeq, hp1, hy⟩ := exists_first_not_mem ⟨u, hup, hnv⟩
  rw [hpeq] at hp ⊢
  obtain ⟨hwalk_y, hwsplit⟩ := isWalk_split p1 hp
  obtain ⟨dy, hdy, hdyle⟩ := inv_interior_bound hInv hwalk_y (by
    intro x hx
    simp only [List.dropLast_concat] at hx
    exact hp1 x hx)
  have hmin : du ≤ dy := extractMin_min hex y dy (lookupN_mem_pair hdy) hy
  calc du ≤ dy := hmin
    _ ≤ walkWeight G (p1 ++ [y]) := hdyle
    _ ≤ walkWeight G (p1 ++ y :: p2) := by rw [hwsplit]; exact Nat.le_add_right _ _

/-- One iteration of the Dijkstra loop preserves the invariant: extract the
frontier minimum `u`, mark it visited, relax its adjacency row. -/
theorem inv_step {G : RoadNetwork} (HG : ValidGraph G) {s0 : Node} {st : DState}
    (hInv : Inv G s0 st) {u : Node} {du : Nat}
    (hex : extractMin st.dist st.visited = some (u, du)) :
    Inv G s0
      { dist := (relaxList u du (neighbors G u) st.dist st.pred).1,
        pred := (relaxList u du (neighbors G u) st.dist st.pred).2,
        visited := u :: st.visited } := by
  obtain ⟨hmemu, hunv⟩ := extractMin_mem hex
  have hdu : lookupN st.dist u = some du := lookupN_of_mem_nodup hInv.nodupD hmemu
  have hadjnd : ((neighbors G u).map Prod.fst).Nodup := by
    unfold neighbors
    cases hl : lookupN G u with
    | none => simp
    | some adj =>
      simp only [Option.getD_some]
      exact HG.adjNodup u adj (lookupN_mem_pair hl)
  have hself : lookupN (neighbors G u) u = none := HG.noSelf u
  have hpw := relaxList_lookup u du (neighbors G u) st.dist st.pred hadjnd
  have hdu' : lookupN (relaxList u du (neighbors G u) st.dist st.pred).1 u = some du := by
    rw [((hpw u).1 hself).1, hdu]
  have hminwalks : ∀ p, IsWalk G s0 u p → du ≤ walkWeight G p :=
    extracted_min_all_walks hInv hex
  obtain ⟨pu, hpu, hpuW, hpuInt⟩ := hInv.sound u du hdu
  have hvis_unchanged :
      ∀ x ∈ st.visited,
        lookupN (relaxList u du (neighbors G u) st.dist st.pred).1 x =
          lookupN st.dist x := by
    intro x hx
    cases hax : lookupN (neighbors G u) x with
    | none => exact ((hpw x).1 hax).1
    | some w =>
      have hwadj : edgeWeight G u x = some w := hax
      obtain ⟨dx', hdx'⟩ := mem_keys_exists_lookupN (hInv.visSub x hx)
      obtain ⟨hwalkx, hwx⟩ := isWalk_concat_edge HG hpu x w hwadj
      have hxle : dx' ≤ du + w := by
        have h := hInv.opt x hx dx' hdx' _ hwalkx
        rw [hwx, hpuW] at h
        exact h
      have h1 := ((hpw x).2 w hax).1
      rw [hdx'] at h1
      simp only [Option.elim] at h1
      rw [h1, hdx', Nat.min_eq_left hxle]
  have hmem_pu : ∀ x ∈ pu, x ∈ u :: st.visited := by
    intro x hx
    rcases isWalk_mem_dropLast_or_end hpu hx with h' | h'
    · exact List.mem_cons_of_mem _ (hpuInt x h')
    · exact h' ▸ List.mem_cons_self _ _
  refine ⟨?_, ?_, ?_, ?_, ?_, ?_, ?_, ?_, ?_⟩
  · exact relaxList_dist_nodup u du _ _ _ hInv.nodupD
  · intro v hv
    rcases relaxList_keys_sub u du _ _ _ v hv with h' | h'
    · exact hInv.keysD v h'
    · obtain ⟨w, hw⟩ := mem_keys_exists_lookupN h'
      have : edgeWeight G v u = some w := HG.symm u v w hw
      exact edgeWeight_mem_keys_left this
  · exact List.nodup_cons.mpr ⟨hunv, hInv.nodupS⟩
  · intro v hv
    rcases List.mem_cons.mp hv with rfl | hv'
    · exact relaxList_keys_super v du _ _ _ v
        (List.mem_map.mpr ⟨(v, du), hmemu, rfl⟩)
    · exact relaxList_keys_super u du _ _ _ v (hInv.visSub v hv')
  · cases hs : lookupN (neighbors G u) s0 with
    | none => rw [((hpw s0).1 hs).1]; exact hInv.src
    | some w =>
      have h1 := ((hpw s0).2 w hs).1
      rw [hInv.src] at h1
      simpa [Nat.zero_min] using h1
  · intro v d hv
    cases hav : lookupN (neighbors G u) v with
    | none =>
      rw [((hpw v).1 hav).1] at hv
      obtain ⟨p, hwalk, hweight, hint⟩ := hInv.sound v d hv
      exact ⟨p, hwalk, hweight, fun x hx => List.mem_cons_of_mem _ (hint x hx)⟩
    | some w =>
      have hwadj : edgeWeight G u v = some w := hav
      obtain ⟨hwalkv, hwv⟩ := isWalk_concat_edge HG hpu v w hwadj
      have hnew : ∀ hd : d = du + w,
          ∃ p, IsWalk G s0 v p ∧ walkWeight G p = d ∧
            ∀ x ∈ p.dropLast, x ∈ u :: st.visited := by
        intro hd
        refine ⟨pu ++ [v], hwalkv, by rw [hwv, hpuW, hd], ?_⟩
        intro x hx
        rw [List.dropLast_concat] at hx
        exact hmem_pu x hx
      have h1 := ((hpw v).2 w hav).1
      rw [h1] at hv
      cases hdv : lookupN st.dist v with
      | none =>
        rw [hdv] at hv
        simp only [Option.elim, Option.some.injEq] at hv
        exact hnew hv.symm
      | some dv =>
        rw [hdv] at hv
        simp only [Option.elim, Option.some.injEq] at hv
        by_cases hmle : dv ≤ du + w
        · rw [Nat.min_eq_left hmle] at hv
          obtain ⟨p, hwalk, hweight, hint⟩ := hInv.sound v dv hdv
          exact ⟨p, hwalk, by rw [hweight, hv], fun x hx =>
            List.mem_cons_of_mem _ (hint x hx)⟩
        · rw [Nat.min_eq_right (Nat.le_of_not_le hmle)] at hv
          exact hnew hv.symm
  · intro v hv d hvd p hpwalk
    rcases List.mem_cons.mp hv with rfl | hv'
    · rw [hdu'] at hvd
      cases hvd
      exact hminwalks p hpwalk
    · rw [hvis_unchanged v hv'] at hvd
      exact hInv.opt v hv' d hvd p hpwalk
  · intro x hx v w hw
    rcases List.mem_cons.mp hx with rfl | hx'
    · have hav : lookupN (neighbors G x) v = some w := hw
      have h1 := ((hpw v).2 w hav).1
      refine ⟨du, _, hdu', h1, ?_⟩
      cases hdv : lookupN st.dist v with
      | none => simp
      | some dv =>
        simp only [Option.elim]
        exact Nat.min_le_right _ _
    · obtain ⟨dx, dv, hdx, hdv, hle⟩ := hInv.relaxedInv x hx' v w hw
      have hdxNew :
          lookupN (relaxList u du (neighbors G u) st.dist st.pred).1 x = some dx := by
        rw [hvis_unchanged x hx']
        exact hdx
      cases hav : lookupN (neighbors G u) v with
      | none =>
        refine ⟨dx, dv, hdxNew, ?_, hle⟩
        rw [((hpw v).1 hav).1]
        exact hdv
      | some w' =>
        have h1 := ((hpw v).2 w' hav).1
        rw [hdv] at h1
        simp only [Option.elim] at h1
        exact ⟨dx, min dv (du + w'), hdxNew, h1,
          le_trans (Nat.min_le_left _ _) hle⟩
  · intro v d hv
    cases hav : lookupN (neighbors G u) v with
    | none =>
      obtain ⟨h1, h2⟩ := (hpw v).1 hav
      rw [h1] at hv
      rcases hInv.predinv v d hv with ⟨hvs, hd0, hpnone⟩ | ⟨u0, w0, du0, hp0, he0, hd0, hsum, hu0⟩
      · exact Or.inl ⟨hvs, hd0, by rw [h2]; exact hpnone⟩
      · refine Or.inr ⟨u0, w0, du0, by rw [h2]; exact hp0, he0, ?_, hsum,
          List.mem_cons_of_mem _ hu0⟩
        rw [hvis_unchanged u0 hu0]
        exact hd0
    | some w =>
      have hwadj : edgeWeight G u v = some w := hav
      obtain ⟨h1, h2⟩ := (hpw v).2 w hav
      rw [h1] at hv
      cases hdv : lookupN st.dist v with
      | none =>
        rw [hdv] at hv h2
        simp only [Option.elim, Option.some.injEq] at hv h2
        exact Or.inr ⟨u, w, du, h2, hwadj, hdu', by omega, List.mem_cons_self _ _⟩
      | some dv =>
        rw [hdv] at hv h2
        simp only [Option.elim, Option.some.injEq] at hv h2
        by_cases hlt : du + w < dv
        · rw [if_pos hlt] at h2
          rw [Nat.min_eq_right (le_of_lt hlt)] at hv
          exact Or.inr ⟨u, w, du, h2, hwadj, hdu', by omega, List.mem_cons_self _ _⟩
        · rw [if_neg hlt] at h2
          rw [Nat.min_eq_left (Nat.le_of_not_lt hlt)] at hv
          rcases hInv.predinv v dv hdv with ⟨hvs, hd0, hpnone⟩ |
            ⟨u0, w0, du0, hp0, he0, hd0, hsum, hu0⟩
          · exact Or.inl ⟨hvs, by omega, by rw [h2]; exact hpnone⟩
          · refine Or.inr ⟨u0, w0, du0, by rw [h2]; exact hp0, he0, ?_, by omega,
              List.mem_cons_of_mem _ hu0⟩
            rw [hvis_unchanged u0 hu0]
            exact hd0

/-- With fuel `|nodes| + 1` the loop reaches the exhausted frontier while
maintaining the invariant: every iteration moves one node (always drawn
from the node set) into the duplicate-free visited list. -/
theorem dijkstraLoop_inv {G : RoadNetwork} (HG : ValidGraph G) {s0 : Node} :
    ∀ (fuel : Nat) (st : DState), Inv G s0 st →
      (keys G).length + 1 - st.visited.length ≤ fuel →
      Inv G s0 (dijkstraLoop G fuel st) ∧
        extractMin (dijkstraLoop G fuel st).dist
          (dijkstraLoop G fuel st).visited = none := by
  intro fuel
  induction fuel with
  | zero =>
    intro st hInv hfuel
    exfalso
    have hsub : st.visited ⊆ keys G := by
      intro v hv
      exact hInv.keysD v (hInv.visSub v hv)
    have hlen : st.visited.length ≤ (keys G).length :=
      (List.subperm_of_subset hInv.nodupS hsub).length_le
    omega
  | succ fuel ih =>
    intro st hInv hfuel
    cases hex : extractMin st.dist st.visited with
    | none =>
      rw [show dijkstraLoop G (fuel + 1) st = st by simp [dijkstraLoop, hex]]
      exact ⟨hInv, hex⟩
    | some p =>
      obtain ⟨u, du⟩ := p
      rw [show dijkstraLoop G (fuel + 1) st = dijkstraLoop G fuel
          { dist := (relaxList u du (neighbors G u) st.dist st.pred).1,
            pred := (relaxList u du (neighbors G u) st.dist st.pred).2,
            visited := u :: st.visited } by simp [dijkstraLoop, hex]]
      apply ih _ (inv_step HG hInv hex)
      simp only [List.length_cons]
      omega

/-- At the exhausted frontier, every node with a recorded distance has been
visited. -/
theorem final_all_visited {F : DState}
    (hex : extractMin F.dist F.visited = none) :
    ∀ v d, lookupN F.dist v = some d → v ∈ F.visited :=
  fun v d h => extractMin_none hex v d (lookupN_mem_pair h)

/-- At the exhausted frontier, distance bindings propagate along every walk:
a reachable node cannot have been left at infinity. -/
theorem final_reach_entry {G : RoadNetwork} {s0 : Node} {F : DState}
    (hInv : Inv G s0 F) (hex : extractMin F.dist F.visited = none) :
    ∀ a t p, IsWalk G a t p → (∃ da, lookupN F.dist a = some da) →
      ∃ dt, lookupN F.dist t = some dt := by
  intro a t p hwalk
  induction hwalk with
  | single a _ => exact fun h => h
  | cons a b c p w hw hp ih =>
    rintro ⟨da, hda⟩
    have havis : a ∈ F.visited := final_all_visited hex a da hda
    obtain ⟨dx, dv, _, hdv, _⟩ := hInv.relaxedInv a havis b w hw
    exact ih ⟨dv, hdv⟩

/-- Correctness of predecessor-walking: in any invariant state, the chain
recorded for a node of distance `d` reconstructs (after reversal) an actual
walk from the source of weight exactly `d`.  Positivity of weights makes
each predecessor step drop the distance, so fuel `d` suffices. -/
theorem walkPreds_correct {G : RoadNetwork} (HG : ValidGraph G) {s0 : Node}
    {F : DState} (hInv : Inv G s0 F) :
    ∀ d v, lookupN F.dist v = some d → ∀ fuel, d ≤ fuel →
      IsWalk G s0 v ((walkPreds F.pred fuel v).reverse) ∧
        walkWeight G ((walkPreds F.pred fuel v).reverse) = d := by
  intro d
  induction d using Nat.strong_induction_on with
  | _ d ih =>
    intro v hv fuel hfuel
    rcases hInv.predinv v d hv with ⟨rfl, rfl, hpnone⟩ |
      ⟨u, w, du, hpu, hew, hdu, hsum, _⟩
    · have hs0 : v ∈ keys G := hInv.keysD v (lookupN_mem_keys hv)
      cases fuel with
      | zero =>
        exact ⟨IsWalk.single v hs0, rfl⟩
      | succ f =>
        rw [show walkPreds F.pred (f + 1) v = [v] by simp [walkPreds, hpnone]]
        exact ⟨IsWalk.single v hs0, rfl⟩
    · have hwpos : 0 < w := HG.pos u v w hew
      cases fuel with
      | zero => omega
      | succ f =>
        rw [show walkPreds F.pred (f + 1) v = v :: walkPreds F.pred f u by
          simp [walkPreds, hpu]]
        obtain ⟨hwalku, hwu⟩ := ih du (by omega) u hdu f (by omega)
        rw [List.reverse_cons]
        obtain ⟨hwalkv, hwv⟩ := isWalk_concat_edge HG hwalku v w hew
        exact ⟨hwalkv, by rw [hwv, hwu, hsum]⟩

/-- Main correctness of the engine on connected queries: a found result
whose path is a real walk of exactly the returned weight, minimal among
all connecting walks. -/
theorem shortestPath_spec_found {G : RoadNetwork} (HG : ValidGraph G) {a b : Node}
    (hr : ∃ p, IsWalk G a b p) :
    ∃ q w, shortestPath G a b = PathResult.found q w ∧ IsWalk G a b q ∧
      walkWeight G q = w ∧ ∀ r, IsWalk G a b r → w ≤ walkWeight G r := by
  obtain ⟨p0, hp0⟩ := hr
  have ha : a ∈ keys G := isWalk_start_mem_keys hp0
  have hb : b ∈ keys G := isWalk_end_mem_keys hp0
  obtain ⟨hF, hexF⟩ :=
    dijkstraLoop_inv HG ((keys G).length + 1)
      { dist := [(a, 0)], pred := [], visited := [] } (inv_init G a ha) (by simp)
  obtain ⟨db, hdb⟩ :
      ∃ db, lookupN (runDijkstra G a).dist b = some db :=
    final_reach_entry hF hexF a b p0 hp0 ⟨0, hF.src⟩
  have hbvis : b ∈ (runDijkstra G a).visited := final_all_visited hexF b db hdb
  have hopt : ∀ r, IsWalk G a b r → db ≤ walkWeight G r :=
    hF.opt b hbvis db hdb
  obtain ⟨hwalkq, hwq⟩ := walkPreds_correct HG hF db b hdb db (le_refl db)
  refine ⟨(walkPreds (runDijkstra G a).pred db b).reverse, db, ?_, hwalkq, hwq, hopt⟩
  unfold shortestPath
  rw [if_pos ⟨ha, hb⟩, hdb]

/-- The engine's explicit no-path result on disconnected queries. -/
theorem shortestPath_spec_noPath {G : RoadNetwork} (HG : ValidGraph G) {a b : Node}
    (ha : a ∈ keys G) (hb : b ∈ keys G)
    (hnr : ¬ ∃ p, IsWalk G a b p) : shortestPath G a b = PathResult.noPath := by
  obtain ⟨hF, _⟩ :=
    dijkstraLoop_inv HG ((keys G).length + 1)
      { dist := [(a, 0)], pred := [], visited := [] } (inv_init G a ha) (by simp)
  unfold shortestPath
  rw [if_pos ⟨ha, hb⟩]
  cases hdb : lookupN (runDijkstra G a).dist b with
  | none => rfl
  | some db =>
    exfalso
    obtain ⟨p, hwalk, _, _⟩ := hF.sound b db hdb
    exact hnr ⟨p, hwalk⟩

/-- The engine's trivial answer on a query with equal endpoints. -/
theorem shortestPath_self {G : RoadNetwork} (HG : ValidGraph G) {a : Node}
    (ha : a ∈ keys G) : shortestPath G a a = PathResult.found [a] 0 := by
  obtain ⟨hF, _⟩ :=
    dijkstraLoop_inv HG ((keys G).length + 1)
      { dist := [(a, 0)], pred := [], visited := [] } (inv_init G a ha) (by simp)
  have hsrc : lookupN (runDijkstra G a).dist a = some 0 := hF.src
  unfold shortestPath
  rw [if_pos ⟨ha, ha⟩, hsrc]
  rfl

/-! ### The Graph Store

The mutation API lives in `data_loader.py` (`update_traffic_weight`,
`get_road_network`), which is not part of this tree; `app.py` only calls
it.  The store is therefore modelled from the design document, §4.1, with
the Version counter of §3 (`app.py`'s `graph_cache_key`). -/

/-- The §7 error taxonomy for mutations. -/
inductive UpdateError where
  | InvalidEdge
  | InvalidWeight
  | EdgeNotFound
deriving DecidableEq

/-- The Graph Store: the adjacency data plus its Version counter. -/
structure Store where
  graph : RoadNetwork
  version : Nat
deriving DecidableEq

/-- Overwrite the weight of the single directed adjacency entry `a → b`
(no effect when `a` is not a node of the network). -/
def setAdjWeight (G : RoadNetwork) (a b : Node) (w : Nat) : RoadNetwork :=
  G.map (fun row => (row.1, if row.1 = a then setEntry row.2 b w else row.2))

/-- Set both directed entries of the undirected edge `{a, b}` to `w`. -/
def setWeightBoth (G : RoadNetwork) (a b : Node) (w : Nat) : RoadNetwork :=
  setAdjWeight (setAdjWeight G a b w) b a w

/-- Modelled from the spec: `updateEdgeWeight(A, B, newWeight)` of §4.1
(`data_loader.py` is not in the tree).  Fails with `InvalidEdge` on a
self-loop, `InvalidWeight` on a non-positive weight, `EdgeNotFound` when
the edge is absent; on success sets both directed entries symmetrically
and bumps the Version by exactly 1 if and only if the new weight differs
from the stored one. -/
def updateEdgeWeight (st : Store) (a b : Node) (newWeight : Int) :
    Except UpdateError Store :=
  if a = b then Except.error UpdateError.InvalidEdge
  else if newWeight ≤ 0 then Except.error UpdateError.InvalidWeight
  else
    match edgeWeight st.graph a b with
    | none => Except.error UpdateError.EdgeNotFound
    | some old =>
      Except.ok
        { graph := setWeightBoth st.graph a b newWeight.toNat,
          version :=
            if newWeight.toNat ≠ old then st.version + 1 else st.version }

/-- A mutation attempt as the caller sees the store afterwards: the new
store on success, the untouched store on failure (all-or-nothing, §7). -/
def tryUpdate (st : Store) (a b : Node) (newWeight : Int) : Store :=
  match updateEdgeWeight st a b newWeight with
  | Except.ok st' => st'
  | Except.error _ => st

/-- The symmetry invariant of §3 on the adjacency structure. -/
def Symm (G : RoadNetwork) : Prop :=
  ∀ a b w, edgeWeight G a b = some w → edgeWeight G b a = some w

/-- The operations a live Graph Store undergoes: successful mutations,
failed mutations (which change nothing), and baseline resets. -/
inductive StoreStep : Store → Store → Prop where
  | update (st : Store) (a b : Node) (w : Int) (st' : Store)
      (h : updateEdgeWeight st a b w = Except.ok st') : StoreStep st st'
  | updateFail (st : Store) (a b : Node) (w : Int) (e : UpdateError)
      (h : updateEdgeWeight st a b w = Except.error e) : StoreStep st st
  | reset (st : Store) (init : RoadNetwork) (h : Symm init) :
      StoreStep st { graph := init, version := st.version + 1 }

/-- States a store can reach from a symmetric provider-supplied network at
Version 0 (§3: the Version lifecycle begins at 0). -/
inductive ReachableStore : Store → Prop where
  | init (g : RoadNetwork) (h : Symm g) : ReachableStore { graph := g, version := 0 }
  | step (s s' : Store) (hs : ReachableStore s) (hstep : StoreStep s s') :
      ReachableStore s'

/-- The "Reset All Traffic" quick action of `app.py` (`display_sidebar`,
lines 229-233): replace the session road network with the provider's
baseline and bump the cache-invalidation counter by exactly 1,
unconditionally. -/
def resetTraffic (st : Store) (initial : RoadNetwork) : Store :=
  { graph := initial, version := st.version + 1 }

/-! ### Store lemmas -/

theorem lookupN_setAdjWeight (G : RoadNetwork) (a b : Node) (w : Nat) (x : Node) :
    lookupN (setAdjWeight G a b w) x =
      (lookupN G x).map (fun adj => if x = a then setEntry adj b w else adj) := by
  induction G with
  | nil => rfl
  | cons row rest ih =>
    obtain ⟨k, adj⟩ := row
    by_cases hkx : k = x
    · subst hkx
      simp [setAdjWeight, lookupN]
    · simp only [setAdjWeight, List.map_cons, lookupN, if_neg hkx]
      exact ih

theorem keys_setAdjWeight (G : RoadNetwork) (a b : Node) (w : Nat) :
    keys (setAdjWeight G a b w) = keys G := by
  induction G with
  | nil => rfl
  | cons row rest ih =>
    simp only [setAdjWeight, keys, List.map_cons] at ih ⊢
    rw [ih]

theorem edgeWeight_setAdjWeight (G : RoadNetwork) (a b : Node) (w : Nat)
    (x y : Node) (ha : a ∈ keys G) :
    edgeWeight (setAdjWeight G a b w) x y =
      if x = a ∧ y = b then some w else edgeWeight G x y := by
  unfold edgeWeight neighbors
  rw [lookupN_setAdjWeight]
  by_cases hxa : x = a
  · obtain ⟨adj, hadj⟩ := mem_keys_exists_lookupN (hxa ▸ ha)
    rw [hadj]
    by_cases hyb : y = b
    · subst hyb
      simp [hxa, lookupN_setEntry_self]
    · simp [hxa, hyb, lookupN_setEntry_ne adj b y w hyb]
  · cases hgx : lookupN G x with
    | none => simp [hxa]
    | some adj => simp [hxa]

theorem edgeWeight_setWeightBoth (G : RoadNetwork) (a b : Node) (w : Nat)
    (x y : Node) (ha : a ∈ keys G) (hb : b ∈ keys G) :
    edgeWeight (setWeightBoth G a b w) x y =
      if (x = a ∧ y = b) ∨ (x = b ∧ y = a) then some w
      else edgeWeight G x y := by
  unfold setWeightBoth
  rw [edgeWeight_setAdjWeight _ b a w x y (by rw [keys_setAdjWeight]; exact hb),
    edgeWeight_setAdjWeight G a b w x y ha]
  by_cases h1 : x = b ∧ y = a <;> by_cases h2 : x = a ∧ y = b <;>
    simp [h1, h2]

theorem symm_setWeightBoth {G : RoadNetwork} (hG : Symm G) {a b : Node} {old : Nat}
    (he : edgeWeight G a b = some old) (w : Nat) :
    Symm (setWeightBoth G a b w) := by
  have ha : a ∈ keys G := edgeWeight_mem_keys_left he
  have hb : b ∈ keys G := edgeWeight_mem_keys_left (hG a b old he)
  intro x y w' hxy
  rw [edgeWeight_setWeightBoth G a b w x y ha hb] at hxy
  rw [edgeWeight_setWeightBoth G a b w y x ha hb]
  by_cases h1 : (x = a ∧ y = b) ∨ (x = b ∧ y = a)
  · rw [if_pos h1] at hxy
    rw [if_pos (by tauto)]
    exact hxy
  · rw [if_neg h1] at hxy
    rw [if_neg (by tauto)]
    exact hG x y w' hxy

theorem updateEdgeWeight_ok_inv {st : Store} {a b : Node} {nw : Int} {st' : Store}
    (h : updateEdgeWeight st a b nw = Except.ok st') :
    a ≠ b ∧ 0 < nw ∧ ∃ old, edgeWeight st.graph a b = some old ∧
      st'.graph = setWeightBoth st.graph a b nw.toNat ∧
      st'.version = (if nw.toNat ≠ old then st.version + 1 else st.version) := by
  unfold updateEdgeWeight at h
  by_cases hab : a = b
  · simp [hab] at h
  · rw [if_neg hab] at h
    by_cases hw : nw ≤ 0
    · simp [hw] at h
    · rw [if_neg hw] at h
      cases he : edgeWeight st.graph a b with
      | none => rw [he] at h; simp at h
      | some old =>
        rw [he] at h
        simp only [Except.ok.injEq] at h
        exact ⟨hab, by omega, old, rfl, by rw [← h], by rw [← h]⟩

theorem updateEdgeWeight_ok {st : Store} {a b : Node} {nw : Int} {old : Nat}
    (hab : a ≠ b) (hw : 0 < nw) (he : edgeWeight st.graph a b = some old) :
    updateEdgeWeight st a b nw =
      Except.ok
        { graph := setWeightBoth st.graph a b nw.toNat,
          version := (if nw.toNat ≠ old then st.version + 1 else st.version) } := by
  unfold updateEdgeWeight
  rw [if_neg hab, if_neg (by omega), he]

theorem storeStep_version_mono {s s' : Store} (h : StoreStep s s') :
    s.version ≤ s'.version := by
  cases h with
  | update a b w st' hupd =>
    obtain ⟨_, _, old, _, _, hv⟩ := updateEdgeWeight_ok_inv hupd
    rw [hv]
    split <;> omega
  | updateFail => exact le_refl _
  | reset => exact Nat.le_succ _

theorem reachableStore_symm {s : Store} (h : ReachableStore s) : Symm s.graph := by
  induction h with
  | init g hg => exact hg
  | step s s' hs hstep ih =>
    cases hstep with
    | update a b w st' hupd =>
      obtain ⟨hab, hw, old, he, hg, _⟩ := updateEdgeWeight_ok_inv hupd
      rw [hg]
      exact symm_setWeightBoth ih he _
    | updateFail => exact ih
    | reset init hinit => exact hinit

/-! ### The derived-view cache (`create_networkx_graph` of `app.py`) -/

/-- The `networkx` view: undirected weighted edges in insertion order.
`nx.Graph.add_edge` overwrites the weight when the unordered pair is
already present. -/
abbrev NXGraph := List (Node × Node × Nat)

/-- Whether `{a, b}` and `{x, y}` are the same unordered pair. -/
def sameEdge (a b x y : Node) : Bool :=
  (a = x && b = y) || (a = y && b = x)

/-- `nx.Graph.add_edge(a, b, weight := w)`: overwrite the weight when the
undirected edge exists, otherwise append it. -/
def nxAddEdge (g : NXGraph) (a b : Node) (w : Nat) : NXGraph :=
  if g.any (fun e => sameEdge e.1 e.2.1 a b) then
    g.map (fun e => if sameEdge e.1 e.2.1 a b then (e.1, e.2.1, w) else e)
  else g ++ [(a, b, w)]

/-- The body of `create_networkx_graph` (`app.py` lines 60-64): iterate the
road network's rows and entries, calling `add_edge` for each directed
adjacency entry. -/
def build_networkx_graph (road_network : RoadNetwork) : NXGraph :=
  road_network.foldl
    (fun g row => row.2.foldl (fun g e => nxAddEdge g row.1 e.1 e.2) g) []

/-- The Streamlit `st.cache_data` memo slot attached to
`create_networkx_graph`.  Streamlit keys the memo by hashing the
parameters that are NOT underscore-prefixed; in `app.py` both parameters
(`_road_network` and `_cache_key`) are underscore-prefixed, so the key is
empty and the memo degenerates to this single unconditional slot. -/
structure CacheSlot where
  store : Option NXGraph
deriving DecidableEq

/-- `create_networkx_graph(_road_network, _cache_key)` of `app.py` (lines
48-64) under its `@st.cache_data` decorator, the memo slot passed
explicitly: on a hit the stored graph is returned with no recomputation;
on a miss the graph is built from the supplied network and stored.
Because both parameters are excluded from the cache key (underscore
prefix), every call after the first is a hit, whatever the arguments. -/
def create_networkx_graph (slot : CacheSlot) ( _road_network : RoadNetwork)
    ( _cache_key : Nat) : NXGraph × CacheSlot :=
  match slot.store with
  | some g => (g, slot)
  | none =>
    let g := build_networkx_graph _road_network
    (g, { store := some g })

/-! ### Route history and the predict-button flow (`app.py`) -/

/-- A route-history record (`add_to_route_history` in `app.py`). -/
structure HistoryEntry where
  timestamp : String
  source : Node
  destination : Node
  time : Nat
  path : List Node
deriving DecidableEq

/-- `add_to_route_history` of `app.py` (lines 177-190): append the entry,
then `pop(0)` the oldest one when the list has grown beyond 10 entries. -/
def add_to_route_history (route_history : List HistoryEntry)
    (entry : HistoryEntry) : List HistoryEntry :=
  let h := route_history ++ [entry]
  if 10 < h.length then h.drop 1 else h

/-- Outcome of pressing the predict button. -/
inductive PredictOutcome where
  | sameNodeWarning
  | engineResult (r : PathResult)
deriving DecidableEq

/-- The predict-button flow of `app.py` `main` (lines 295-309): equal source
and destination are rejected with a warning before the engine runs;
otherwise the shortest path is computed on the live road network. -/
def predictRoute (road_network : RoadNetwork) (source destination : Node) :
    PredictOutcome :=
  if source = destination then PredictOutcome.sameNodeWarning
  else PredictOutcome.engineResult (shortestPath road_network source destination)

/-! ### Executable validity check, for concrete networks -/

/-- Decidable check of the §3 data-model invariants. -/
def checkValid (G : RoadNetwork) : Bool :=
  decide ((G.map Prod.fst).Nodup) &&
    G.all (fun row =>
      decide ((row.2.map Prod.fst).Nodup) &&
        row.2.all (fun e =>
          decide (0 < e.2) && decide (row.1 ≠ e.1) &&
            decide (edgeWeight G e.1 row.1 = some e.2)))

theorem edgeWeight_decomp {G : RoadNetwork} {a b : Node} {w : Nat}
    (h : edgeWeight G a b = some w) :
    ∃ adj, (a, adj) ∈ G ∧ (b, w) ∈ adj := by
  unfold edgeWeight neighbors at h
  cases hl : lookupN G a with
  | none => rw [hl] at h; simp [lookupN] at h
  | some adj =>
    rw [hl] at h
    exact ⟨adj, lookupN_mem_pair hl, lookupN_mem_pair h⟩

theorem checkValid_sound {G : RoadNetwork} (h : checkValid G = true) :
    ValidGraph G := by
  unfold checkValid at h
  simp only [Bool.and_eq_true, List.all_eq_true, decide_eq_true_eq] at h
  obtain ⟨hnd, hrows⟩ := h
  refine ⟨hnd, ?_, ?_, ?_, ?_⟩
  · intro a adj hmem
    exact (hrows (a, adj) hmem).1
  · intro a b w hw
    obtain ⟨adj, hrow, hentry⟩ := edgeWeight_decomp hw
    exact ((hrows (a, adj) hrow).2 (b, w) hentry).1.1
  · intro a b w hw
    obtain ⟨adj, hrow, hentry⟩ := edgeWeight_decomp hw
    exact ((hrows (a, adj) hrow).2 (b, w) hentry).2
  · intro a
    cases he : edgeWeight G a a with
    | none => rfl
    | some w =>
      exfalso
      obtain ⟨adj, hrow, hentry⟩ := edgeWeight_decomp he
      exact ((hrows (a, adj) hrow).2 (a, w) hentry).1.2 rfl

/-- A walk cannot escape a set of nodes that is closed under adjacency. -/
theorem walk_stays {G : RoadNetwork} (S : List Node)
    (hS : ∀ x ∈ S, ∀ y w, edgeWeight G x y = some w → y ∈ S) :
    ∀ a c p, IsWalk G a c p → a ∈ S → c ∈ S := by
  intro a c p hw
  induction hw with
  | single a _ => exact fun h => h
  | cons a b c p w hwe hp ih => exact fun ha => ih (hS a ha b w hwe)

/-! ### Concrete networks used as witnesses -/

/-- The spec's §8 concrete scenario: `{A-B:5, B-C:3, A-C:10}`. -/
def specScenario : RoadNetwork :=
  [("A", [("B", 5), ("C", 10)]),
   ("B", [("A", 5), ("C", 3)]),
   ("C", [("A", 10), ("B", 3)])]

/-- A valid network with two separate components: `{A-B:1}` and `{C-D:2}`. -/
def splitNetwork : RoadNetwork :=
  [("A", [("B", 1)]), ("B", [("A", 1)]),
   ("C", [("D", 2)]), ("D", [("C", 2)])]

/-- A network before a traffic edit: the single edge `A-B` at weight 5. -/
def rnBefore : RoadNetwork := [("A", [("B", 5)]), ("B", [("A", 5)])]

/-- The same network after the traffic edit `A-B := 2`. -/
def rnAfter : RoadNetwork := [("A", [("B", 2)]), ("B", [("A", 2)])]

/-- Sanity check: the engine reproduces the spec's §8 scenario, preferring
the two-hop route `[A, B, C]` of weight 8 over the direct edge of
weight 10. -/
theorem specScenario_eval :
    shortestPath specScenario "A" "C" = PathResult.found ["A", "B", "C"] 8 := by
  decide

/-- Sanity check: after `updateEdgeWeight(A, C, 2)` the engine, run on the
live store, switches to the direct route of weight 2 (spec §8). -/
theorem specScenario_after_update_eval :
    shortestPath (tryUpdate { graph := specScenario, version := 0 } "A" "C" 2).graph
        "A" "C" = PathResult.found ["A", "C"] 2 ∧
      (tryUpdate { graph := specScenario, version := 0 } "A" "C" 2).version = 1 := by
  constructor
  · decide
  · decide

/-! ### The claims -/

/-- C1: the claim states that `create_networkx_graph` (under
`@st.cache_data`, keyed by the `_cache_key` version) rebuilds the view
whenever the version changes.  The code violates this: both parameters
are underscore-prefixed, so Streamlit excludes them from the cache key and
every call after the first is a cache hit.  Concretely, after building the
view of `rnBefore` under key 0, the call with the edited network `rnAfter`
and the bumped key 1 still returns the stale view of `rnBefore` instead of
the freshly built view of `rnAfter`. -/
theorem c1_cache_never_rebuilds :
    (create_networkx_graph (create_networkx_graph ⟨none⟩ rnBefore 0).2 rnAfter 1).1 =
        (create_networkx_graph ⟨none⟩ rnBefore 0).1 ∧
      (create_networkx_graph (create_networkx_graph ⟨none⟩ rnBefore 0).2 rnAfter 1).1 ≠
        build_networkx_graph rnAfter := by
  constructor
  · rfl
  · decide

/-- C2: on a valid graph, for connected endpoints, `shortestPath` returns a
found result whose path is an actual walk from source to destination, whose
weight is the exact sum of the traversed edge weights, and which is minimal
among all connecting walks. -/
theorem c2_shortestPath_optimal (G : RoadNetwork) (HG : ValidGraph G) (a b : Node)
    (hconn : ∃ p, IsWalk G a b p) :
    ∃ q w, shortestPath G a b = PathResult.found q w ∧ IsWalk G a b q ∧
      walkWeight G q = w ∧ ∀ r, IsWalk G a b r → w ≤ walkWeight G r :=
  shortestPath_spec_found HG hconn

/-- Witness for C2 on the spec's §8 scenario graph. -/
theorem c2_shortestPath_optimal_witness :
    ∃ q w, shortestPath specScenario "A" "C" = PathResult.found q w ∧
      IsWalk specScenario "A" "C" q ∧ walkWeight specScenario q = w ∧
      ∀ r, IsWalk specScenario "A" "C" r → w ≤ walkWeight specScenario r :=
  c2_shortestPath_optimal specScenario (checkValid_sound (by decide)) "A" "C"
    ⟨["A", "C"], IsWalk.cons "A" "C" "C" ["C"] 10 (by decide)
      (IsWalk.single "C" (by decide))⟩

/-- C3: a successful `updateEdgeWeight` bumps the Version by exactly 1 if
and only if the new weight differs from the stored one (a no-op write
leaves it unchanged), and no store operation ever decreases the Version. -/
theorem c3_version_bump_iff_changed (st : Store) (a b : Node) (w : Int) (old : Nat)
    (hab : a ≠ b) (hw : 0 < w) (he : edgeWeight st.graph a b = some old) :
    (∃ st', updateEdgeWeight st a b w = Except.ok st' ∧
      (st'.version = st.version + 1 ↔ w.toNat ≠ old) ∧
      (w.toNat = old → st'.version = st.version)) ∧
    (∀ s s', StoreStep s s' → s.version ≤ s'.version) := by
  constructor
  · refine ⟨_, updateEdgeWeight_ok hab hw he, ?_, ?_⟩
    · show (if w.toNat ≠ old then st.version + 1 else st.version) = st.version + 1 ↔
        w.toNat ≠ old
      by_cases hne : w.toNat ≠ old
      · simp [hne]
      · simp [hne]
    · intro heq
      show (if w.toNat ≠ old then st.version + 1 else st.version) = st.version
      simp [heq]
  · exact fun s s' h => storeStep_version_mono h

/-- Witness for C3: on the §8 store, editing `A-B` from 5 to 7. -/
theorem c3_version_bump_iff_changed_witness :
    (∃ st', updateEdgeWeight { graph := specScenario, version := 0 } "A" "B" 7 =
        Except.ok st' ∧
      (st'.version = ({ graph := specScenario, version := 0 } : Store).version + 1 ↔
        (7 : Int).toNat ≠ 5) ∧
      ((7 : Int).toNat = 5 →
        st'.version = ({ graph := specScenario, version := 0 } : Store).version)) ∧
    (∀ s s', StoreStep s s' → s.version ≤ s'.version) :=
  c3_version_bump_iff_changed { graph := specScenario, version := 0 } "A" "B" 7 5
    (by decide) (by decide) (by decide)

/-- C4: every reachable Graph Store state is symmetric (each adjacency entry
has its reverse entry with identical weight), and every successful
`updateEdgeWeight` preserves that symmetry by writing both directed
entries. -/
theorem c4_symmetry_invariant (s : Store) (hs : ReachableStore s) :
    (∀ a b w, edgeWeight s.graph a b = some w → edgeWeight s.graph b a = some w) ∧
    (∀ (a b : Node) (w : Int) (st' : Store),
      updateEdgeWeight s a b w = Except.ok st' →
      ∀ x y wv, edgeWeight st'.graph x y = some wv →
        edgeWeight st'.graph y x = some wv) := by
  have hsym : Symm s.graph := reachableStore_symm hs
  refine ⟨hsym, ?_⟩
  intro a b w st' hupd x y wv hxy
  obtain ⟨_, _, old, he, hg, _⟩ := updateEdgeWeight_ok_inv hupd
  rw [hg] at hxy ⊢
  exact symm_setWeightBoth hsym he _ x y wv hxy

/-- Witness for C4 at the freshly initialized §8 store. -/
theorem c4_symmetry_invariant_witness :
    (∀ a b w, edgeWeight ({ graph := specScenario, version := 0 } : Store).graph a b =
        some w →
      edgeWeight ({ graph := specScenario, version := 0 } : Store).graph b a = some w) ∧
    (∀ (a b : Node) (w : Int) (st' : Store),
      updateEdgeWeight { graph := specScenario, version := 0 } a b w = Except.ok st' →
      ∀ x y wv, edgeWeight st'.graph x y = some wv →
        edgeWeight st'.graph y x = some wv) :=
  c4_symmetry_invariant { graph := specScenario, version := 0 }
    (ReachableStore.init specScenario (checkValid_sound (by decide)).symm)

/-- C5: each failing mode of `updateEdgeWeight` produces its documented
error, and any failing call leaves both the adjacency structure and the
Version completely unchanged (all-or-nothing). -/
theorem c5_failed_update_unchanged (st : Store) (a b : Node) (w : Int) :
    (a = b → updateEdgeWeight st a b w = Except.error UpdateError.InvalidEdge) ∧
    (a ≠ b → w ≤ 0 →
      updateEdgeWeight st a b w = Except.error UpdateError.InvalidWeight) ∧
    (a ≠ b → 0 < w → edgeWeight st.graph a b = none →
      updateEdgeWeight st a b w = Except.error UpdateError.EdgeNotFound) ∧
    (∀ e, updateEdgeWeight st a b w = Except.error e →
      tryUpdate st a b w = st ∧ (tryUpdate st a b w).graph = st.graph ∧
        (tryUpdate st a b w).version = st.version) := by
  refine ⟨?_, ?_, ?_, ?_⟩
  · intro hab
    simp [updateEdgeWeight, hab]
  · intro hab hw
    simp [updateEdgeWeight, hab, hw]
  · intro hab hw he
    unfold updateEdgeWeight
    rw [if_neg hab, if_neg (by omega), he]
  · intro e he
    simp [tryUpdate, he]

/-- Witness for C5: a self-loop edit attempt on the §8 store. -/
theorem c5_failed_update_unchanged_witness :
    updateEdgeWeight { graph := specScenario, version := 5 } "A" "A" 3 =
        Except.error UpdateError.InvalidEdge ∧
      tryUpdate { graph := specScenario, version := 5 } "A" "A" 3 =
        { graph := specScenario, version := 5 } := by
  have h := c5_failed_update_unchanged { graph := specScenario, version := 5 } "A" "A" 3
  exact ⟨h.1 rfl, (h.2.2.2 UpdateError.InvalidEdge (h.1 rfl)).1⟩

/-- C6: given equal endpoints present in a valid graph, the engine returns
the trivial single-node path of weight 0 (no error), while the caller
level (`app.py`'s predict flow) separately rejects equal source and
destination with a warning before ever invoking the engine. -/
theorem c6_self_query (G : RoadNetwork) (HG : ValidGraph G) (a : Node)
    (ha : a ∈ keys G) :
    shortestPath G a a = PathResult.found [a] 0 ∧
      predictRoute G a a = PredictOutcome.sameNodeWarning :=
  ⟨shortestPath_self HG ha, by simp [predictRoute]⟩

/-- Witness for C6 at node `A` of the §8 scenario graph. -/
theorem c6_self_query_witness :
    shortestPath specScenario "A" "A" = PathResult.found ["A"] 0 ∧
      predictRoute specScenario "A" "A" = PredictOutcome.sameNodeWarning :=
  c6_self_query specScenario (checkValid_sound (by decide)) "A" (by decide)

/-- C7: for distinct nodes of a valid graph with no connecting walk, the
engine returns the explicit no-path value — a normal result distinguishable
from both a found path and the `UnknownNode` failure. -/
theorem c7_no_path_normal_result (G : RoadNetwork) (HG : ValidGraph G) (a b : Node)
    (ha : a ∈ keys G) (hb : b ∈ keys G) ( _hab : a ≠ b)
    (hnr : ¬ ∃ p, IsWalk G a b p) :
    shortestPath G a b = PathResult.noPath ∧
      shortestPath G a b ≠ PathResult.unknownNode ∧
      ∀ q w, shortestPath G a b ≠ PathResult.found q w := by
  have h := shortestPath_spec_noPath HG ha hb hnr
  exact ⟨h, by simp [h], fun q w => by simp [h]⟩

/-- Witness for C7: the two-component network, querying across components. -/
theorem c7_no_path_normal_result_witness :
    shortestPath splitNetwork "A" "C" = PathResult.noPath ∧
      shortestPath splitNetwork "A" "C" ≠ PathResult.unknownNode ∧
      ∀ q w, shortestPath splitNetwork "A" "C" ≠ PathResult.found q w := by
  apply c7_no_path_normal_result splitNetwork (checkValid_sound (by decide)) "A" "C"
    (by decide) (by decide) (by decide)
  rintro ⟨p, hp⟩
  have hclosed : ∀ x ∈ (["A", "B"] : List Node), ∀ y w,
      edgeWeight splitNetwork x y = some w → y ∈ (["A", "B"] : List Node) := by
    intro x hx y w hw
    have hy := lookupN_mem_keys hw
    rcases List.mem_cons.mp hx with rfl | hx'
    · rw [show (neighbors splitNetwork "A").map Prod.fst = ["B"] from rfl] at hy
      rw [List.mem_singleton.mp hy]
      decide
    rcases List.mem_cons.mp hx' with rfl | hx''
    · rw [show (neighbors splitNetwork "B").map Prod.fst = ["A"] from rfl] at hy
      rw [List.mem_singleton.mp hy]
      decide
    · simp at hx''
  have hstay := walk_stays (G := splitNetwork) ["A", "B"] hclosed "A" "C" p hp (by decide)
  revert hstay
  decide

/-- C8: the reset action replaces the whole adjacency structure with the
supplied baseline and bumps the Version by exactly 1 unconditionally, even
when the baseline equals the current structure. -/
theorem c8_reset_unconditional_bump (st : Store) (initial : RoadNetwork) :
    (resetTraffic st initial).graph = initial ∧
      (resetTraffic st initial).version = st.version + 1 ∧
      (resetTraffic st st.graph).version = st.version + 1 :=
  ⟨rfl, rfl, rfl⟩

/-- C9: the triangle inequality for shortest-path weights on a valid graph
with pairwise-connected nodes. -/
theorem c9_triangle_inequality (G : RoadNetwork) (HG : ValidGraph G) (a b c : Node)
    (hab : ∃ p, IsWalk G a b p) (hbc : ∃ p, IsWalk G b c p) :
    ∃ pab wab pbc wbc pac wac,
      shortestPath G a b = PathResult.found pab wab ∧
      shortestPath G b c = PathResult.found pbc wbc ∧
      shortestPath G a c = PathResult.found pac wac ∧
      wac ≤ wab + wbc := by
  obtain ⟨pab, wab, hab1, hab2, hab3, hab4⟩ := shortestPath_spec_found HG hab
  obtain ⟨pbc, wbc, hbc1, hbc2, hbc3, hbc4⟩ := shortestPath_spec_found HG hbc
  have hac : ∃ p, IsWalk G a c p := by
    obtain ⟨p1, hp1⟩ := hab
    obtain ⟨p2, hp2⟩ := hbc
    exact ⟨_, (isWalk_concat hp1 c p2 hp2).1⟩
  obtain ⟨pac, wac, hac1, hac2, hac3, hac4⟩ := shortestPath_spec_found HG hac
  refine ⟨pab, wab, pbc, wbc, pac, wac, hab1, hbc1, hac1, ?_⟩
  obtain ⟨hcat, hcatw⟩ := isWalk_concat hab2 c pbc hbc2
  have hle := hac4 _ hcat
  rw [hcatw, hab3, hbc3] at hle
  exact hle

/-- Witness for C9 on the §8 scenario graph with `A`, `B`, `C`. -/
theorem c9_triangle_inequality_witness :
    ∃ pab wab pbc wbc pac wac,
      shortestPath specScenario "A" "B" = PathResult.found pab wab ∧
      shortestPath specScenario "B" "C" = PathResult.found pbc wbc ∧
      shortestPath specScenario "A" "C" = PathResult.found pac wac ∧
      wac ≤ wab + wbc :=
  c9_triangle_inequality specScenario (checkValid_sound (by decide)) "A" "B" "C"
    ⟨["A", "B"], IsWalk.cons "A" "B" "B" ["B"] 5 (by decide)
      (IsWalk.single "B" (by decide))⟩
    ⟨["B", "C"], IsWalk.cons "B" "C" "C" ["C"] 3 (by decide)
      (IsWalk.single "C" (by decide))⟩

/-- C10: starting from a history within the bound, `add_to_route_history`
keeps at most 10 entries: a plain append while strictly below the bound,
and an append with the oldest entry dropped when the list is full, so
entries stay in insertion order with the most recent last. -/
theorem c10_history_bound (route_history : List HistoryEntry) (entry : HistoryEntry)
    (hlen : route_history.length ≤ 10) :
    (add_to_route_history route_history entry).length ≤ 10 ∧
      (route_history.length < 10 →
        add_to_route_history route_history entry = route_history ++ [entry]) ∧
      (route_history.length = 10 →
        add_to_route_history route_history entry = route_history.tail ++ [entry]) := by
  unfold add_to_route_history
  by_cases hgt : 10 < (route_history ++ [entry]).length
  · rw [if_pos hgt]
    rw [List.length_append, List.length_singleton] at hgt
    have h10 : route_history.length = 10 := by omega
    refine ⟨?_, ?_, ?_⟩
    · rw [List.length_drop, List.length_append, List.length_singleton]
      omega
    · intro hlt
      omega
    · intro _
      rw [List.drop_append_of_le_length (by omega), List.drop_one]
  · rw [if_neg hgt]
    rw [List.length_append, List.length_singleton] at hgt
    refine ⟨?_, fun _ => rfl, ?_⟩
    · rw [List.length_append, List.length_singleton]
      omega
    · intro h10
      omega

/-- A sample history record. -/
def sampleEntry : HistoryEntry :=
  { timestamp := "12:00:00", source := "A", destination := "C",
    time := 8, path := ["A", "B", "C"] }

/-- Witness for C10: appending to an empty history. -/
theorem c10_history_bound_witness :
    (add_to_route_history [] sampleEntry).length ≤ 10 ∧
      (([] : List HistoryEntry).length < 10 →
        add_to_route_history [] sampleEntry = [] ++ [sampleEntry]) ∧
      (([] : List HistoryEntry).length = 10 →
        add_to_route_history [] sampleEntry =
          ([] : List HistoryEntry).tail ++ [sampleEntry]) :=
  c10_history_bound [] sampleEntry (by simp)

end TrafficPredictor
